import Mathlib

/-!
Verification of the text-cleaning module
src/codes/models/audio/tts/tacotron2/text/cleaners.py.

Python strings are modelled as List Char (sequences of Unicode scalar
values).  Pure string transforms of the source become Lean functions on
List Char.  The two external collaborators that are not part of the
repository - unicodedata.normalize("NFKC", .) and unidecode.unidecode -
are passed as explicit function parameters; theorems about concrete
inputs instantiate the NFKC parameter with the identity function, which
agrees with real NFKC on the ASCII and canonical-Arabic inputs used.
-/

/-- Whitespace as matched by Python's regex class backslash-s (with the
default Unicode semantics of patterns compiled from str, as in
_whitespace_re = re.compile(r'\s+') at line 22) and as stripped by
str.strip(): the characters for which str.isspace() is true. -/
def isPySpace (c : Char) : Bool :=
  c.toNat == 0x20 || (0x9 ≤ c.toNat && c.toNat ≤ 0xD) ||
  (0x1C ≤ c.toNat && c.toNat ≤ 0x1F) ||
  c.toNat == 0x85 || c.toNat == 0xA0 || c.toNat == 0x1680 ||
  (0x2000 ≤ c.toNat && c.toNat ≤ 0x200A) || c.toNat == 0x2028 || c.toNat == 0x2029 ||
  c.toNat == 0x202F || c.toNat == 0x205F || c.toNat == 0x3000

/-- The character class [ً-ٟ] of the compiled pattern
arabic_diacritics in remove_diacritics (source lines 57-58). -/
def isArabicDiacritic (c : Char) : Bool :=
  0x64B ≤ c.toNat && c.toNat ≤ 0x65F

/-- remove_diacritics (source lines 56-59):
re.sub(r'[ً-ٟ]', '', text) deletes every character of the
class and keeps all others in order. -/
def remove_diacritics (text : List Char) : List Char :=
  text.filter (fun c => !isArabicDiacritic c)

/-- Worker for re.sub(r'\s+', ' ', text): scans left to right; the flag
records whether the previous character was part of a whitespace run, so
each maximal run of whitespace is emitted as one ASCII space. -/
def collapseGo : Bool → List Char → List Char
  | _, [] => []
  | prevSpace, c :: rest =>
    if isPySpace c then
      if prevSpace then collapseGo true rest else ' ' :: collapseGo true rest
    else
      c :: collapseGo false rest

/-- collapse_whitespace (source lines 90-91): re.sub(_whitespace_re, ' ', text). -/
def collapse_whitespace (text : List Char) : List Char :=
  collapseGo false text

/-- Worker for Python str.replace(old, new): left-to-right scan replacing
non-overlapping occurrences.  The Nat counter skips the remaining
characters of a match that has just been replaced (structural recursion
on the list, so the kernel can evaluate it).  All call sites in the
source use a non-empty old, which the guard enforces. -/
def replaceAux (old new : List Char) : Nat → List Char → List Char
  | _, [] => []
  | k + 1, _ :: rest => replaceAux old new k rest
  | 0, c :: rest =>
    if old ≠ [] ∧ old.isPrefixOf (c :: rest) then
      new ++ replaceAux old new (old.length - 1) rest
    else
      c :: replaceAux old new 0 rest

/-- Python text.replace(old, new) for non-empty old. -/
def pyReplace (text old new : List Char) : List Char :=
  replaceAux old new 0 text

/-- Python str.strip() with no argument: remove leading and trailing
whitespace (the str.isspace() set). -/
def pyStrip (text : List Char) : List Char :=
  ((text.dropWhile isPySpace).reverse.dropWhile isPySpace).reverse

/-- ASCII-range case folding, the part of Python str.lower() exercised by
every input in this development; spec section 4.6 describes lowercase as
implementation-defined outside ASCII, typically ASCII-range folding. -/
def pyLowerChar (c : Char) : Char :=
  if 65 ≤ c.toNat ∧ c.toNat ≤ 90 then Char.ofNat (c.toNat + 32) else c

/-- lowercase (source lines 86-87): text.lower(). -/
def lowercase (text : List Char) : List Char :=
  text.map pyLowerChar

/-- Word characters of the regex metacharacter backslash-w restricted to
ASCII; the English abbreviation patterns are matched only against ASCII
inputs in this development. -/
def isWordChar (c : Char) : Bool :=
  (65 ≤ c.toNat && c.toNat ≤ 90) || (97 ≤ c.toNat && c.toNat ≤ 122) ||
  (48 ≤ c.toNat && c.toNat ≤ 57) || c.toNat == 95

/-- Worker for re.sub(re.compile('\\b%s\\.' % stem, re.IGNORECASE), repl, text)
(the abbreviation patterns of source lines 25-44 applied at lines 76-79).
The Bool records whether the previous character of the original text was a
word character, so a match is only taken at a left word boundary; matching
the stem and the period is case-insensitive; the scan resumes after the
matched text, whose last character (the period) is not a word character.
The Nat counter skips the remaining characters of a replaced match. -/
def subAbbrevAux (stem repl : List Char) : Nat → Bool → List Char → List Char
  | _, _, [] => []
  | k + 1, prevW, _ :: rest => subAbbrevAux stem repl k prevW rest
  | 0, prevW, c :: rest =>
    if !prevW && (stem ++ ['.']).isPrefixOf (List.map pyLowerChar (c :: rest)) then
      repl ++ subAbbrevAux stem repl stem.length false rest
    else
      c :: subAbbrevAux stem repl 0 (isWordChar c) rest

/-- The _abbreviations table (source lines 25-44): ordered (stem, replacement)
pairs; each stem is compiled to the pattern '\\b<stem>\\.' with re.IGNORECASE. -/
def _abbreviations : List (List Char × List Char) :=
  [ ("mrs".toList, "misess".toList),
    ("mr".toList, "mister".toList),
    ("dr".toList, "doctor".toList),
    ("st".toList, "saint".toList),
    ("co".toList, "company".toList),
    ("jr".toList, "junior".toList),
    ("maj".toList, "major".toList),
    ("gen".toList, "general".toList),
    ("drs".toList, "doctors".toList),
    ("rev".toList, "reverend".toList),
    ("lt".toList, "lieutenant".toList),
    ("hon".toList, "honorable".toList),
    ("sgt".toList, "sergeant".toList),
    ("capt".toList, "captain".toList),
    ("esq".toList, "esquire".toList),
    ("ltd".toList, "limited".toList),
    ("col".toList, "colonel".toList),
    ("ft".toList, "fort".toList) ]

/-- expand_abbreviations (source lines 76-79): each pattern is applied in
table order, each pass feeding the next. -/
def expand_abbreviations (text : List Char) : List Char :=
  _abbreviations.foldl (fun t p => subAbbrevAux p.1 p.2 0 false t) text

/-- ARABIC_ABBREVIATIONS (source lines 47-54), in insertion order, written
with explicit code points.  Keys and values (Arabic letters named by their
Unicode names):
  [daal, '.']                        -> daktor  (doctor)
  [alefHamza, '.', daal]             -> ustadh daktor  (professor doctor)
  [meem, '.']                        -> muhandis  (engineer)
  [kaf, jeem, meem]                  -> kilogram
  [kaf, meem]                        -> kilometr
  [daal, waw, lam, alef, reh]        -> dolar amriki  (US dollar) -/
def ARABIC_ABBREVIATIONS : List (List Char × List Char) :=
  [ ([Char.ofNat 0x62F, '.'],
     [Char.ofNat 0x62F, Char.ofNat 0x643, Char.ofNat 0x62A, Char.ofNat 0x648,
      Char.ofNat 0x631]),
    ([Char.ofNat 0x623, '.', Char.ofNat 0x62F],
     [Char.ofNat 0x623, Char.ofNat 0x633, Char.ofNat 0x62A, Char.ofNat 0x627,
      Char.ofNat 0x630, ' ', Char.ofNat 0x62F, Char.ofNat 0x643, Char.ofNat 0x62A,
      Char.ofNat 0x648, Char.ofNat 0x631]),
    ([Char.ofNat 0x645, '.'],
     [Char.ofNat 0x645, Char.ofNat 0x647, Char.ofNat 0x646, Char.ofNat 0x62F,
      Char.ofNat 0x633]),
    ([Char.ofNat 0x643, Char.ofNat 0x62C, Char.ofNat 0x645],
     [Char.ofNat 0x643, Char.ofNat 0x64A, Char.ofNat 0x644, Char.ofNat 0x648,
      Char.ofNat 0x63A, Char.ofNat 0x631, Char.ofNat 0x627, Char.ofNat 0x645]),
    ([Char.ofNat 0x643, Char.ofNat 0x645],
     [Char.ofNat 0x643, Char.ofNat 0x64A, Char.ofNat 0x644, Char.ofNat 0x648,
      Char.ofNat 0x645, Char.ofNat 0x62A, Char.ofNat 0x631]),
    ([Char.ofNat 0x62F, Char.ofNat 0x648, Char.ofNat 0x644, Char.ofNat 0x627,
      Char.ofNat 0x631],
     [Char.ofNat 0x62F, Char.ofNat 0x648, Char.ofNat 0x644, Char.ofNat 0x627,
      Char.ofNat 0x631, ' ', Char.ofNat 0x623, Char.ofNat 0x645, Char.ofNat 0x631,
      Char.ofNat 0x64A, Char.ofNat 0x643, Char.ofNat 0x64A]) ]

/-- Modelled from the spec: unicodedata.normalize("NFKC", .) is external to
this repository (spec section 4.3 step 1 treats it as the collaborator that
collapses compatibility characters to canonical form, and section 7 notes it
never raises).  NFKC is the identity on text that is already in canonical
form; every concrete input used below consists of ASCII characters and
canonical Arabic letters, on which real NFKC is the identity, so the
collaborator is modelled as the identity there.  Theorems that quantify over
all inputs are instead parameterized over an arbitrary nfkc function. -/
def nfkc_canonical (text : List Char) : List Char :=
  text

/-- The abbreviation-expansion loop of normalize_arabic_text (source lines
66-68): for each (abbr, full) of ARABIC_ABBREVIATIONS in insertion order,
text = text.replace(abbr, full). -/
def arabicExpandAbbreviations (text : List Char) : List Char :=
  ARABIC_ABBREVIATIONS.foldl (fun t p => pyReplace t p.1 p.2) text

/-- normalize_arabic_text (source lines 61-73), with the external NFKC
collaborator as a parameter: NFKC-normalize, remove diacritics, expand the
Arabic abbreviations, collapse whitespace runs to single spaces
(re.sub(r'\s+', ' ', text)), delete double quotes (text.replace('"', '')),
and strip leading/trailing whitespace. -/
def normalize_arabic_text (nfkc : List Char → List Char) (text : List Char) : List Char :=
  pyStrip (pyReplace (collapse_whitespace (arabicExpandAbbreviations
    (remove_diacritics (nfkc text)))) ['\x22'] [])

/-- expand_numbers (source lines 82-83): delegates to the external
collaborator normalize_numbers (from .numbers, not part of this excerpt),
passed as a parameter. -/
def expand_numbers (normalize_numbers : List Char → List Char) (text : List Char) :
    List Char :=
  normalize_numbers text

/-- convert_to_ascii (source lines 94-95): delegates to the external
collaborator unidecode, passed as a parameter. -/
def convert_to_ascii (unidecodeFn : List Char → List Char) (text : List Char) :
    List Char :=
  unidecodeFn text

/-- basic_cleaners (source lines 98-102): lowercase then collapse whitespace. -/
def basic_cleaners (text : List Char) : List Char :=
  collapse_whitespace (lowercase text)

/-- transliteration_cleaners (source lines 105-109): convert to ASCII,
lowercase, collapse whitespace. -/
def transliteration_cleaners (unidecodeFn : List Char → List Char)
    (text : List Char) : List Char :=
  collapse_whitespace (lowercase (convert_to_ascii unidecodeFn text))

/-- english_cleaners (source lines 113-115): return normalize_arabic_text(text). -/
def english_cleaners (nfkc : List Char → List Char) (text : List Char) : List Char :=
  normalize_arabic_text nfkc text

/-- Deletion of the Arabic diacritic range, written independently from the
words of the claim (every character with code point in U+064B..U+065F
deleted, all other characters kept unchanged in their original order), to
compare with the source-derived remove_diacritics. -/
def delete_diacritics_spec : List Char → List Char
  | [] => []
  | c :: rest =>
    if 0x64B ≤ c.toNat ∧ c.toNat ≤ 0x65F then delete_diacritics_spec rest
    else c :: delete_diacritics_spec rest

/-- True when the first character exists and is whitespace. -/
def leadingWS : List Char → Bool
  | [] => false
  | c :: _ => isPySpace c

/-- True when the last character exists and is whitespace. -/
def trailingWS (l : List Char) : Bool :=
  leadingWS l.reverse

/-- A character that is either not whitespace or the ASCII space. -/
def wsOkChar (c : Char) : Bool :=
  !isPySpace c || c == ' '

/-- Every whitespace character of the list is the ASCII space. -/
def allWSSpace (l : List Char) : Bool :=
  l.all wsOkChar

/-- No two adjacent characters are both whitespace. -/
def noWSRun : List Char → Bool
  | a :: b :: rest => !(isPySpace a && isPySpace b) && noWSRun (b :: rest)
  | _ => true

/-- The key "dolar" (daal waw lam alef reh) of ARABIC_ABBREVIATIONS. -/
def dolarKey : List Char :=
  [Char.ofNat 0x62F, Char.ofNat 0x648, Char.ofNat 0x644, Char.ofNat 0x627,
   Char.ofNat 0x631]

/-- The expansion "dolar amriki" of the key dolarKey. -/
def dolarExpanded : List Char :=
  [Char.ofNat 0x62F, Char.ofNat 0x648, Char.ofNat 0x644, Char.ofNat 0x627,
   Char.ofNat 0x631, ' ', Char.ofNat 0x623, Char.ofNat 0x645, Char.ofNat 0x631,
   Char.ofNat 0x64A, Char.ofNat 0x643, Char.ofNat 0x64A]

/-- ASCII letter A-Z or a-z. -/
def asciiLetter (c : Char) : Bool :=
  (65 ≤ c.toNat && c.toNat ≤ 90) || (97 ≤ c.toNat && c.toNat ≤ 122)

/-- ASCII uppercase letter A-Z. -/
def isUpperAscii (c : Char) : Bool :=
  65 ≤ c.toNat && c.toNat ≤ 90

/-- The Arabic letter kaf. -/
def kafC : Char := Char.ofNat 0x643

/-- The Arabic letter jeem. -/
def jeemC : Char := Char.ofNat 0x62C

/-- The Arabic letter meem. -/
def meemC : Char := Char.ofNat 0x645

/-- The key "kjm" (kaf jeem meem, the kilogram abbreviation) of
ARABIC_ABBREVIATIONS. -/
def kjm : List Char := [kafC, jeemC, meemC]

/-- The expansion "kilogram" of the key kjm. -/
def kiloGramVal : List Char :=
  [Char.ofNat 0x643, Char.ofNat 0x64A, Char.ofNat 0x644, Char.ofNat 0x648,
   Char.ofNat 0x63A, Char.ofNat 0x631, Char.ofNat 0x627, Char.ofNat 0x645]

/-- C4: expand_abbreviations("Dr. Smith and Mrs. Jones") returns exactly
"doctor Smith and misess Jones" - stems followed by a period are matched
case-insensitively at a left word boundary, in table order, and the
lowercase replacement is inserted verbatim. -/
theorem C4_expand_abbreviations_dr_mrs :
    expand_abbreviations ("Dr. Smith and Mrs. Jones".toList) =
      "doctor Smith and misess Jones".toList := by
  decide

/-- C5: remove_diacritics deletes exactly the characters with code point in
U+064B..U+065F, keeps all other characters unchanged in their original
order (it agrees with the independent spec-side deletion function and is a
sublist of the input), and maps the empty string to the empty string. -/
theorem C5_remove_diacritics_contract (text : List Char) :
    remove_diacritics text = delete_diacritics_spec text ∧
    (∀ c ∈ remove_diacritics text, ¬ (0x64B ≤ c.toNat ∧ c.toNat ≤ 0x65F)) ∧
    List.Sublist (remove_diacritics text) text ∧
    remove_diacritics ([] : List Char) = [] := by
  refine ⟨?_, ?_, List.filter_sublist text, rfl⟩
  · induction text with
    | nil => rfl
    | cons a t ih =>
      by_cases h : (0x64B ≤ a.toNat ∧ a.toNat ≤ 0x65F)
      · have hb : isArabicDiacritic a = true := by
          simp [isArabicDiacritic, h.1, h.2]
        simp [remove_diacritics, delete_diacritics_spec, hb, h] at ih ⊢
        exact ih
      · have hb : isArabicDiacritic a = false := by
          simp only [isArabicDiacritic, Bool.and_eq_false_iff]
          rcases Decidable.not_and_iff_or_not.mp h with h1 | h1
          · exact Or.inl (by simpa using h1)
          · exact Or.inr (by simpa using h1)
        simp [remove_diacritics, delete_diacritics_spec, hb, h] at ih ⊢
        exact ih
  · intro c hc
    have := List.of_mem_filter hc
    simp only [isArabicDiacritic, Bool.not_eq_true', Bool.and_eq_false_iff,
      decide_eq_false_iff_not] at this
    intro hcon
    rcases this with h1 | h1
    · exact h1 (by exact_mod_cast hcon.1)
    · exact h1 (by exact_mod_cast hcon.2)

/-- C6: basic_cleaners("HELLO   WORLD") returns exactly "hello world": the
basic pipeline lowercases and then collapses each whitespace run to a
single space. -/
theorem C6_basic_cleaners_hello_world :
    basic_cleaners ("HELLO   WORLD".toList) = "hello world".toList := by
  decide

/-- C8: remove_diacritics is idempotent. -/
theorem C8_remove_diacritics_idempotent (s : List Char) :
    remove_diacritics (remove_diacritics s) = remove_diacritics s := by
  simp [remove_diacritics, List.filter_filter]

theorem noWSRun_tail (a : Char) (l : List Char) (h : noWSRun (a :: l) = true) :
    noWSRun l = true := by
  cases l with
  | nil => rfl
  | cons b r =>
    simp only [noWSRun, Bool.and_eq_true] at h
    exact h.2

theorem noWSRun_cons_of_head (c : Char) (l : List Char) (h1 : leadingWS l = false)
    (h2 : noWSRun l = true) : noWSRun (c :: l) = true := by
  cases l with
  | nil => rfl
  | cons b r =>
    simp only [leadingWS] at h1
    simp [noWSRun, h1, h2]

theorem noWSRun_cons_of_nonspace (c : Char) (l : List Char) (h1 : isPySpace c = false)
    (h2 : noWSRun l = true) : noWSRun (c :: l) = true := by
  cases l with
  | nil => rfl
  | cons b r => simp [noWSRun, h1, h2]

theorem leadingWS_collapseGo_true (l : List Char) :
    leadingWS (collapseGo true l) = false := by
  induction l with
  | nil => rfl
  | cons c rest ih =>
    by_cases hs : isPySpace c = true
    · simpa [collapseGo, hs] using ih
    · simp [collapseGo, hs, leadingWS]

theorem allWSSpace_collapseGo (l : List Char) :
    ∀ b, allWSSpace (collapseGo b l) = true := by
  induction l with
  | nil => intro b; rfl
  | cons c rest ih =>
    intro b
    by_cases hs : isPySpace c = true
    · cases b
      · simpa [collapseGo, hs, allWSSpace, wsOkChar] using ih true
      · simpa [collapseGo, hs] using ih true
    · cases b
      · simpa [collapseGo, hs, allWSSpace, wsOkChar] using ih false
      · simpa [collapseGo, hs, allWSSpace, wsOkChar] using ih false

theorem noWSRun_collapseGo (l : List Char) :
    ∀ b, noWSRun (collapseGo b l) = true := by
  induction l with
  | nil => intro b; rfl
  | cons c rest ih =>
    intro b
    by_cases hs : isPySpace c = true
    · cases b
      · have : collapseGo false (c :: rest) = ' ' :: collapseGo true rest := by
          simp [collapseGo, hs]
        rw [this]
        exact noWSRun_cons_of_head _ _ (leadingWS_collapseGo_true rest) (ih true)
      · have : collapseGo true (c :: rest) = collapseGo true rest := by
          simp [collapseGo, hs]
        rw [this]
        exact ih true
    · have : ∀ b, collapseGo b (c :: rest) = c :: collapseGo false rest := by
        intro b; cases b <;> simp [collapseGo, hs]
      rw [this b]
      exact noWSRun_cons_of_nonspace _ _ (by simpa using hs) (ih false)

theorem collapseGo_fixed (l : List Char) (hA : allWSSpace l = true)
    (hR : noWSRun l = true) :
    collapseGo false l = l ∧ (leadingWS l = false → collapseGo true l = l) := by
  induction l with
  | nil => exact ⟨rfl, fun _ => rfl⟩
  | cons c rest ih =>
    have hA2 : allWSSpace rest = true := by
      simp only [allWSSpace, List.all_cons, Bool.and_eq_true] at hA
      exact hA.2
    have hR2 : noWSRun rest = true := noWSRun_tail _ _ hR
    obtain ⟨ih1, ih2⟩ := ih hA2 hR2
    by_cases hs : isPySpace c = true
    · have hc : c = ' ' := by
        simp only [allWSSpace, List.all_cons, Bool.and_eq_true] at hA
        have h1 := hA.1
        simp only [wsOkChar, hs, Bool.not_true, Bool.false_or, beq_iff_eq] at h1
        exact h1
      have hlead : leadingWS rest = false := by
        cases rest with
        | nil => rfl
        | cons b r =>
          simp only [noWSRun, Bool.and_eq_true, Bool.not_eq_true',
            Bool.and_eq_false_iff] at hR
          rcases hR.1 with h | h
          · rw [hs] at h; cases h
          · simp [leadingWS, h]
      refine ⟨?_, ?_⟩
      · have h1 : collapseGo false (c :: rest) = ' ' :: collapseGo true rest := by
          simp [collapseGo, hs]
        rw [h1, ih2 hlead, hc]
      · intro hl
        simp [leadingWS, hs] at hl
    · refine ⟨?_, ?_⟩
      · simp [collapseGo, hs, ih1]
      · intro _
        simp [collapseGo, hs, ih1]

/-- C7: collapse_whitespace is idempotent. -/
theorem C7_collapse_whitespace_idempotent (s : List Char) :
    collapse_whitespace (collapse_whitespace s) = collapse_whitespace s :=
  (collapseGo_fixed (collapseGo false s) (allWSSpace_collapseGo s false)
    (noWSRun_collapseGo s false)).1

theorem leadingWS_dropWhile (l : List Char) :
    leadingWS (l.dropWhile isPySpace) = false := by
  induction l with
  | nil => rfl
  | cons c rest ih =>
    by_cases hs : isPySpace c = true
    · simpa [List.dropWhile_cons, hs] using ih
    · have hs2 : isPySpace c = false := by simpa using hs
      simp [List.dropWhile_cons, hs2, leadingWS]

theorem leadingWS_of_pfx (p1 y : List Char) (h : p1 <+: y) (hne : p1 ≠ [])
    (hy : leadingWS y = false) : leadingWS p1 = false := by
  obtain ⟨w, hw⟩ := h
  cases p1 with
  | nil => cases hne rfl
  | cons a t =>
    rw [← hw] at hy
    simpa [leadingWS] using hy

theorem pyStrip_pfx_dropWhile (l : List Char) :
    pyStrip l <+: l.dropWhile isPySpace := by
  unfold pyStrip
  have h : (l.dropWhile isPySpace).reverse.dropWhile isPySpace <:+
      (l.dropWhile isPySpace).reverse := List.dropWhile_suffix isPySpace
  have h2 := List.reverse_prefix.mpr h
  simpa using h2

theorem pyStrip_leading (l : List Char) : leadingWS (pyStrip l) = false := by
  cases hp : pyStrip l with
  | nil => rfl
  | cons a t =>
    have h1 := pyStrip_pfx_dropWhile l
    rw [hp] at h1
    have h2 := leadingWS_of_pfx _ _ h1 (by simp) (leadingWS_dropWhile l)
    exact h2

theorem pyStrip_trailing (l : List Char) : trailingWS (pyStrip l) = false := by
  unfold trailingWS pyStrip
  rw [List.reverse_reverse]
  exact leadingWS_dropWhile _

theorem pyStrip_ifx (l : List Char) : pyStrip l <:+: l :=
  (pyStrip_pfx_dropWhile l).isInfix.trans (List.dropWhile_suffix isPySpace).isInfix

theorem pyStrip_eq_self (l : List Char) (h1 : leadingWS l = false)
    (h2 : trailingWS l = false) : pyStrip l = l := by
  have e1 : l.dropWhile isPySpace = l := by
    cases l with
    | nil => rfl
    | cons a t =>
      simp only [leadingWS] at h1
      simp [List.dropWhile_cons, h1]
  unfold pyStrip
  rw [e1]
  have e2 : l.reverse.dropWhile isPySpace = l.reverse := by
    unfold trailingWS at h2
    cases hr : l.reverse with
    | nil => rfl
    | cons a t =>
      rw [hr] at h2
      simp only [leadingWS] at h2
      simp [List.dropWhile_cons, h2]
  rw [e2, List.reverse_reverse]

theorem mem_replaceAux (old new : List Char) (c : Char) :
    ∀ k l, c ∈ replaceAux old new k l → c ∈ new ∨ c ∈ l := by
  intro k l
  induction l generalizing k with
  | nil =>
    intro h
    cases k <;> simp only [replaceAux] at h <;> cases h
  | cons d rest ih =>
    intro h
    cases k with
    | succ k0 =>
      rw [replaceAux] at h
      rcases ih k0 h with h1 | h1
      · exact Or.inl h1
      · exact Or.inr (List.mem_cons_of_mem d h1)
    | zero =>
      by_cases hm : (old ≠ [] ∧ old.isPrefixOf (d :: rest))
      · rw [replaceAux, if_pos hm] at h
        rcases List.mem_append.mp h with h1 | h1
        · exact Or.inl h1
        · rcases ih _ h1 with h2 | h2
          · exact Or.inl h2
          · exact Or.inr (List.mem_cons_of_mem d h2)
      · rw [replaceAux, if_neg hm] at h
        rcases List.mem_cons.mp h with h1 | h1
        · exact Or.inr (h1 ▸ List.mem_cons_self d rest)
        · rcases ih _ h1 with h2 | h2
          · exact Or.inl h2
          · exact Or.inr (List.mem_cons_of_mem d h2)

theorem mem_collapseGo (c : Char) (l : List Char) :
    ∀ b, c ∈ collapseGo b l → c = ' ' ∨ c ∈ l := by
  induction l with
  | nil => intro b h; cases h
  | cons d rest ih =>
    intro b h
    by_cases hs : isPySpace d = true
    · cases b
      · have : collapseGo false (d :: rest) = ' ' :: collapseGo true rest := by
          simp [collapseGo, hs]
        rw [this] at h
        rcases List.mem_cons.mp h with h1 | h1
        · exact Or.inl h1
        · rcases ih true h1 with h2 | h2
          · exact Or.inl h2
          · exact Or.inr (List.mem_cons_of_mem d h2)
      · have : collapseGo true (d :: rest) = collapseGo true rest := by
          simp [collapseGo, hs]
        rw [this] at h
        rcases ih true h with h2 | h2
        · exact Or.inl h2
        · exact Or.inr (List.mem_cons_of_mem d h2)
    · have hs2 : isPySpace d = false := by simpa using hs
      have : collapseGo b (d :: rest) = d :: collapseGo false rest := by
        cases b <;> simp [collapseGo, hs2]
      rw [this] at h
      rcases List.mem_cons.mp h with h1 | h1
      · exact Or.inr (h1 ▸ List.mem_cons_self d rest)
      · rcases ih false h1 with h2 | h2
        · exact Or.inl h2
        · exact Or.inr (List.mem_cons_of_mem d h2)

theorem mem_foldReplace (tbl : List (List Char × List Char)) (c : Char) :
    ∀ t, c ∈ tbl.foldl (fun t p => pyReplace t p.1 p.2) t →
      c ∈ t ∨ ∃ p ∈ tbl, c ∈ p.2 := by
  induction tbl with
  | nil => intro t h; exact Or.inl h
  | cons q qs ih =>
    intro t h
    rw [List.foldl_cons] at h
    rcases ih _ h with h1 | h1
    · rcases mem_replaceAux q.1 q.2 c 0 t h1 with h2 | h2
      · exact Or.inr ⟨q, List.mem_cons_self q qs, h2⟩
      · exact Or.inl h2
    · obtain ⟨p, hp, hcp⟩ := h1
      exact Or.inr ⟨p, List.mem_cons_of_mem q hp, hcp⟩

theorem quoteReplace_eq_filter (t : List Char) :
    pyReplace t ['\x22'] [] = t.filter (fun c => c ≠ '\x22') := by
  unfold pyReplace
  induction t with
  | nil => rfl
  | cons c rest ih =>
    by_cases hc : c = '\x22'
    · have hm : (['\x22'] ≠ ([] : List Char) ∧
          List.isPrefixOf ['\x22'] (c :: rest)) := by
        refine ⟨by simp, ?_⟩
        simp [List.isPrefixOf, hc]
      rw [replaceAux, if_pos hm]
      simp only [List.length_cons, List.length_nil, List.nil_append]
      rw [ih]
      simp [hc]
    · have hm : ¬ (['\x22'] ≠ ([] : List Char) ∧
          List.isPrefixOf ['\x22'] (c :: rest)) := by
        rintro ⟨-, h2⟩
        simp [List.isPrefixOf] at h2
        exact hc h2.symm
      rw [replaceAux, if_neg hm, ih]
      simp [hc]

theorem arabic_values_no_diacritic :
    ∀ p ∈ ARABIC_ABBREVIATIONS, ∀ c ∈ p.2, isArabicDiacritic c = false := by
  decide

/-- C1 counterexample: for the input "a, space, double quote, space, b" the
output of normalize_arabic_text is "a, space, space, b", which has an internal
run of two whitespace characters: quote deletion (pipeline step 5) runs after
whitespace collapsing (step 4), so deleting the quote joins the two single
spaces that surrounded it.  Real NFKC is the identity on this ASCII input,
matching nfkc_canonical. -/
theorem C1_counterexample :
    ¬ (List.any (normalize_arabic_text nfkc_canonical ['a', ' ', '\x22', ' ', 'b'])
         isArabicDiacritic = false ∧
       '\x22' ∉ normalize_arabic_text nfkc_canonical ['a', ' ', '\x22', ' ', 'b'] ∧
       leadingWS (normalize_arabic_text nfkc_canonical ['a', ' ', '\x22', ' ', 'b'])
         = false ∧
       trailingWS (normalize_arabic_text nfkc_canonical ['a', ' ', '\x22', ' ', 'b'])
         = false ∧
       noWSRun (normalize_arabic_text nfkc_canonical ['a', ' ', '\x22', ' ', 'b'])
         = true) := by
  decide

/-- C1 (amended): for every NFKC collaborator and every string s, the output
of normalize_arabic_text contains no character of the Arabic diacritic range
U+064B..U+065F, contains no double-quote character, has no leading or trailing
whitespace, and every whitespace character it contains is the single ASCII
space; however an internal run of two or more spaces can occur when a double
quote flanked by spaces is deleted, because quote removal runs after
whitespace collapsing. -/
theorem C1_amended_normalize_output_invariants (nfkc : List Char → List Char)
    (s : List Char) :
    List.any (normalize_arabic_text nfkc s) isArabicDiacritic = false ∧
    '\x22' ∉ normalize_arabic_text nfkc s ∧
    leadingWS (normalize_arabic_text nfkc s) = false ∧
    trailingWS (normalize_arabic_text nfkc s) = false ∧
    allWSSpace (normalize_arabic_text nfkc s) = true := by
  have hout : normalize_arabic_text nfkc s =
      pyStrip (pyReplace (collapse_whitespace (arabicExpandAbbreviations
        (remove_diacritics (nfkc s)))) ['\x22'] []) := rfl
  set t2 := remove_diacritics (nfkc s) with ht2
  set t3 := arabicExpandAbbreviations t2 with ht3
  set t4 := collapse_whitespace t3 with ht4
  set t5 := pyReplace t4 ['\x22'] [] with ht5
  have ht4e : t4 = collapseGo false t3 := rfl
  have hm5 : ∀ c ∈ pyStrip t5, c ∈ t5 := fun _ hc => (pyStrip_ifx t5).mem hc
  have hm4 : ∀ c ∈ t5, c ∈ t4 := by
    intro c hc
    rw [ht5, quoteReplace_eq_filter] at hc
    exact List.mem_of_mem_filter hc
  have hnq : ∀ c ∈ t5, c ≠ '\x22' := by
    intro c hc
    rw [ht5, quoteReplace_eq_filter] at hc
    have h := List.of_mem_filter hc
    simpa using h
  have hm3 : ∀ c ∈ t4, c = ' ' ∨ c ∈ t3 := by
    intro c hc
    rw [ht4e] at hc
    exact mem_collapseGo c t3 false hc
  have hws4 : ∀ c ∈ t4, wsOkChar c = true := by
    intro c hc
    have hA := allWSSpace_collapseGo t3 false
    simp only [allWSSpace] at hA
    rw [ht4e] at hc
    exact List.all_eq_true.mp hA c hc
  have hd3 : ∀ c ∈ t3, isArabicDiacritic c = false := by
    intro c hc
    rw [ht3] at hc
    rcases mem_foldReplace ARABIC_ABBREVIATIONS c t2 hc with h1 | h1
    · rw [ht2] at h1
      have h := List.of_mem_filter h1
      simpa using h
    · obtain ⟨p, hp, hcp⟩ := h1
      exact arabic_values_no_diacritic p hp c hcp
  refine ⟨?_, ?_, ?_, ?_, ?_⟩
  · rw [hout, List.any_eq_false]
    intro c hc
    rcases hm3 c (hm4 c (hm5 c hc)) with rfl | h3
    · decide
    · simp [hd3 c h3]
  · rw [hout]
    intro hc
    exact hnq _ (hm5 _ hc) rfl
  · rw [hout]
    exact pyStrip_leading t5
  · rw [hout]
    exact pyStrip_trailing t5
  · rw [hout]
    simp only [allWSSpace]
    rw [List.all_eq_true]
    intro c hc
    exact hws4 c (hm4 c (hm5 c hc))

/-- C2: english_cleaners is definitionally the Arabic normalization pipeline;
the basic and transliteration pipelines are exactly lowercase plus whitespace
collapse (plus ASCII conversion), so none of the three invokes
expand_abbreviations or expand_numbers.  Behavioral evidence: on
"Dr. Smith and Mrs. Jones" the current english pipeline is the identity (no
abbreviation or number expansion, no lowercasing), while expand_abbreviations
does rewrite that input. -/
theorem C2_english_cleaners_is_arabic_normalization :
    (∀ nfkc text, english_cleaners nfkc text = normalize_arabic_text nfkc text) ∧
    (∀ text, basic_cleaners text = collapse_whitespace (lowercase text)) ∧
    (∀ uni text, transliteration_cleaners uni text =
      collapse_whitespace (lowercase (convert_to_ascii uni text))) ∧
    english_cleaners nfkc_canonical ("Dr. Smith and Mrs. Jones".toList) =
      "Dr. Smith and Mrs. Jones".toList ∧
    expand_abbreviations ("Dr. Smith and Mrs. Jones".toList) ≠
      "Dr. Smith and Mrs. Jones".toList := by
  refine ⟨fun _ _ => rfl, fun _ => rfl, fun _ _ => rfl, by decide, by decide⟩

/-- C10: normalize_arabic_text is not idempotent.  The key dolarKey expands to
dolarExpanded, which itself starts with the key, so a second application
expands it again.  The nfkc collaborator is only assumed to fix the two
canonical-Arabic strings involved, which is true of real NFKC. -/
theorem C10_normalize_arabic_not_idempotent (nfkc : List Char → List Char)
    (h1 : nfkc dolarKey = dolarKey) (h2 : nfkc dolarExpanded = dolarExpanded) :
    normalize_arabic_text nfkc (normalize_arabic_text nfkc dolarKey) ≠
      normalize_arabic_text nfkc dolarKey := by
  have e1 : normalize_arabic_text nfkc dolarKey = dolarExpanded := by
    unfold normalize_arabic_text
    rw [h1]
    decide
  rw [e1]
  unfold normalize_arabic_text
  rw [h2]
  decide

/-- Witness for C10 at the identity NFKC model. -/
theorem C10_witness :
    normalize_arabic_text nfkc_canonical
        (normalize_arabic_text nfkc_canonical dolarKey) ≠
      normalize_arabic_text nfkc_canonical dolarKey :=
  C10_normalize_arabic_not_idempotent nfkc_canonical rfl rfl

theorem charOfNatToNat (n : Nat) (h : 97 ≤ n) (h2 : n ≤ 122) :
    (Char.ofNat n).toNat = n := by
  have hv : n.isValidChar := Or.inl (by omega)
  simp [Char.ofNat, hv, Char.ofNatAux, Char.toNat, UInt32.ofNatCore, UInt32.toNat,
    BitVec.toNat_ofNatLt]

theorem pyLowerChar_toNat (c : Char) (h : 65 ≤ c.toNat) (h2 : c.toNat ≤ 90) :
    (pyLowerChar c).toNat = c.toNat + 32 := by
  unfold pyLowerChar
  rw [if_pos ⟨h, h2⟩]
  exact charOfNatToNat _ (by omega) (by omega)

theorem pyLowerChar_of_not_upper (c : Char) (h : ¬ (65 ≤ c.toNat ∧ c.toNat ≤ 90)) :
    pyLowerChar c = c := by
  unfold pyLowerChar
  rw [if_neg h]

theorem asciiLetter_not_ws (c : Char) (h : asciiLetter c = true) :
    isPySpace c = false := by
  simp only [asciiLetter, Bool.or_eq_true, Bool.and_eq_true, decide_eq_true_eq] at h
  rw [Bool.eq_false_iff]
  intro hw
  simp only [isPySpace, Bool.or_eq_true, Bool.and_eq_true, decide_eq_true_eq,
    beq_iff_eq] at hw
  omega

theorem isPySpace_pyLowerChar (c : Char) (h : asciiLetter c = true ∨ c = ' ') :
    isPySpace (pyLowerChar c) = isPySpace c := by
  rcases h with h | rfl
  · simp only [asciiLetter, Bool.or_eq_true, Bool.and_eq_true, decide_eq_true_eq] at h
    rcases h with h | h
    · have ht := pyLowerChar_toNat c h.1 h.2
      have h1 : isPySpace (pyLowerChar c) = false := by
        rw [Bool.eq_false_iff]
        intro hw
        simp only [isPySpace, Bool.or_eq_true, Bool.and_eq_true, decide_eq_true_eq,
          beq_iff_eq] at hw
        omega
      have h2 : isPySpace c = false := by
        rw [Bool.eq_false_iff]
        intro hw
        simp only [isPySpace, Bool.or_eq_true, Bool.and_eq_true, decide_eq_true_eq,
          beq_iff_eq] at hw
        omega
      rw [h1, h2]
    · rw [pyLowerChar_of_not_upper c (by omega)]
  · rw [pyLowerChar_of_not_upper ' ' (by decide)]

theorem noWSRun_map (f : Char → Char) (l : List Char)
    (hf : ∀ c ∈ l, isPySpace (f c) = isPySpace c) (h : noWSRun l = true) :
    noWSRun (List.map f l) = true := by
  induction l with
  | nil => rfl
  | cons a t ih =>
    cases t with
    | nil => rfl
    | cons b r =>
      have ha := hf a (List.mem_cons_self a _)
      have hb := hf b (List.mem_cons_of_mem a (List.mem_cons_self b r))
      have ht := ih (fun c hc => hf c (List.mem_cons_of_mem a hc))
        (noWSRun_tail a _ h)
      simp only [List.map_cons] at ht ⊢
      simp only [noWSRun, Bool.and_eq_true] at h ⊢
      refine ⟨?_, ht⟩
      rw [ha, hb]
      exact h.1

theorem map_eq_self_mem (f : Char → Char) (l : List Char) (h : List.map f l = l) :
    ∀ c ∈ l, f c = c := by
  induction l with
  | nil => simp
  | cons a t ih =>
    simp only [List.map_cons, List.cons.injEq] at h
    intro c hc
    rcases List.mem_cons.mp hc with rfl | hc
    · exact h.1
    · exact ih h.2 c hc

theorem pyReplace_id_of_not_mem (old new l : List Char) (a : Char) (ha : a ∈ old)
    (hnl : a ∉ l) : pyReplace l old new = l := by
  unfold pyReplace
  induction l with
  | nil => rfl
  | cons c rest ih =>
    have hnm : ¬ (old ≠ [] ∧ old.isPrefixOf (c :: rest)) := by
      rintro ⟨-, hp⟩
      exact hnl ((( List.isPrefixOf_iff_prefix.mp hp).isInfix).mem ha)
    rw [replaceAux, if_neg hnm]
    have hrest : a ∉ rest := fun h => hnl (List.mem_cons_of_mem c h)
    rw [ih hrest]

theorem foldReplace_id (tbl : List (List Char × List Char)) (s : List Char)
    (hs : ∀ p ∈ tbl, ∃ a ∈ p.1, a ∉ s) :
    tbl.foldl (fun t p => pyReplace t p.1 p.2) s = s := by
  induction tbl with
  | nil => rfl
  | cons q qs ih =>
    rw [List.foldl_cons]
    obtain ⟨a, ha1, ha2⟩ := hs q (List.mem_cons_self q qs)
    rw [pyReplace_id_of_not_mem q.1 q.2 s a ha1 ha2]
    exact ih (fun p hp => hs p (List.mem_cons_of_mem q hp))

theorem arabic_keys_have_non_ascii :
    ∀ p ∈ ARABIC_ABBREVIATIONS, ∃ a ∈ p.1, asciiLetter a = false ∧ a ≠ ' ' := by
  decide

/-- C9: on a non-empty string of ASCII letters and single interior spaces
(no leading/trailing whitespace, no adjacent whitespace), english_cleaners
returns the string unchanged - it performs no case folding - and whenever the
string contains an uppercase letter its result differs from basic_cleaners.
The nfkc collaborator is only assumed to fix the input, which is true of real
NFKC on ASCII text. -/
theorem C9_english_cleaners_preserves_ascii (nfkc : List Char → List Char)
    (s : List Char) (_hne : s ≠ []) (hfix : nfkc s = s)
    (halpha : ∀ c ∈ s, asciiLetter c = true ∨ c = ' ')
    (hlead : leadingWS s = false) (htrail : trailingWS s = false)
    (hrun : noWSRun s = true) :
    english_cleaners nfkc s = s ∧
    ((∃ c ∈ s, isUpperAscii c = true) → basic_cleaners s ≠ english_cleaners nfkc s) := by
  have hallws : allWSSpace s = true := by
    simp only [allWSSpace, List.all_eq_true]
    intro c hc
    rcases halpha c hc with h | rfl
    · simp [wsOkChar, asciiLetter_not_ws c h]
    · decide
  have h1 : english_cleaners nfkc s = s := by
    unfold english_cleaners normalize_arabic_text
    rw [hfix]
    have e2 : remove_diacritics s = s := by
      unfold remove_diacritics
      rw [List.filter_eq_self]
      intro c hc
      rcases halpha c hc with h | rfl
      · simp only [asciiLetter, Bool.or_eq_true, Bool.and_eq_true,
          decide_eq_true_eq] at h
        simp only [Bool.not_eq_true', Bool.eq_false_iff]
        intro hd
        simp only [isArabicDiacritic, Bool.and_eq_true, decide_eq_true_eq] at hd
        omega
      · decide
    rw [e2]
    have e3 : arabicExpandAbbreviations s = s := by
      unfold arabicExpandAbbreviations
      refine foldReplace_id _ s ?_
      intro p hp
      obtain ⟨a, ha1, ha2, ha3⟩ := arabic_keys_have_non_ascii p hp
      refine ⟨a, ha1, fun hmem => ?_⟩
      rcases halpha a hmem with h | h
      · rw [ha2] at h; cases h
      · exact ha3 h
    rw [e3]
    have e4 : collapse_whitespace s = s := by
      unfold collapse_whitespace
      exact (collapseGo_fixed s hallws hrun).1
    rw [e4]
    have e5 : pyReplace s ['\x22'] [] = s := by
      refine pyReplace_id_of_not_mem _ _ s '\x22' (List.mem_cons_self _ _) ?_
      intro hmem
      rcases halpha _ hmem with h | h
      · cases h
      · cases h
    rw [e5]
    exact pyStrip_eq_self s hlead htrail
  refine ⟨h1, ?_⟩
  rintro ⟨c0, hc0, hup⟩ heq
  rw [h1] at heq
  have hb : basic_cleaners s = List.map pyLowerChar s := by
    unfold basic_cleaners collapse_whitespace lowercase
    refine (collapseGo_fixed _ ?_ ?_).1
    · simp only [allWSSpace, List.all_eq_true]
      intro d hd
      obtain ⟨c, hc, rfl⟩ := List.mem_map.mp hd
      rcases halpha c hc with h | rfl
      · have hns := isPySpace_pyLowerChar c (Or.inl h)
        rw [asciiLetter_not_ws c h] at hns
        simp [wsOkChar, hns]
      · rw [pyLowerChar_of_not_upper ' ' (by decide)]
        decide
    · exact noWSRun_map pyLowerChar s
        (fun c hc => isPySpace_pyLowerChar c (halpha c hc)) hrun
  rw [hb] at heq
  have := map_eq_self_mem pyLowerChar s heq c0 hc0
  simp only [isUpperAscii, Bool.and_eq_true, decide_eq_true_eq] at hup
  have ht := pyLowerChar_toNat c0 hup.1 hup.2
  rw [this] at ht
  omega

/-- Witness for C9 at the four-character input A b space C and the identity
NFKC model. -/
theorem C9_witness :
    english_cleaners nfkc_canonical ['A', 'b', ' ', 'C'] = ['A', 'b', ' ', 'C'] ∧
    basic_cleaners ['A', 'b', ' ', 'C'] ≠
      english_cleaners nfkc_canonical ['A', 'b', ' ', 'C'] := by
  have h := C9_english_cleaners_preserves_ascii nfkc_canonical ['A', 'b', ' ', 'C']
    (by decide) rfl (by decide) (by decide) (by decide) (by decide)
  exact ⟨h.1, h.2 ⟨'A', by decide, by decide⟩⟩

theorem kjm_cons : kjm = kafC :: [jeemC, meemC] := rfl

theorem pyReplace_nil (old new : List Char) : pyReplace [] old new = [] := by
  simp [pyReplace, replaceAux]

theorem replaceAux_skip (old new : List Char) :
    ∀ k l, replaceAux old new k l = replaceAux old new 0 (l.drop k) := by
  intro k l
  induction l generalizing k with
  | nil => cases k <;> simp [replaceAux]
  | cons c rest ih =>
    cases k with
    | zero => rw [List.drop_zero]
    | succ k0 =>
      rw [replaceAux, ih k0, List.drop_succ_cons]

theorem pyReplace_cons_match (old new : List Char) (c : Char) (rest : List Char)
    (h : old ≠ [] ∧ old.isPrefixOf (c :: rest)) :
    pyReplace (c :: rest) old new =
      new ++ pyReplace (rest.drop (old.length - 1)) old new := by
  unfold pyReplace
  rw [replaceAux, if_pos h, replaceAux_skip]

theorem pyReplace_cons_nomatch (old new : List Char) (c : Char) (rest : List Char)
    (h : ¬ (old ≠ [] ∧ old.isPrefixOf (c :: rest))) :
    pyReplace (c :: rest) old new = c :: pyReplace rest old new := by
  unfold pyReplace
  rw [replaceAux, if_neg h]

theorem ifx_append_split (p : List Char) :
    ∀ a b : List Char, p <:+: a ++ b →
      p <:+: a ∨ p <:+: b ∨
      ∃ s1 t1, p = s1 ++ t1 ∧ s1 ≠ [] ∧ t1 ≠ [] ∧ s1 <:+ a ∧ t1 <+: b := by
  intro a
  induction a with
  | nil =>
    intro b h
    exact Or.inr (Or.inl (by simpa using h))
  | cons x a2 ih =>
    intro b h
    rw [List.cons_append] at h
    rcases List.infix_cons_iff.mp h with hp | ht
    · rw [← List.cons_append] at hp
      by_cases hlen : p.length ≤ (x :: a2).length
      · have hxa : (x :: a2) <+: (x :: a2) ++ b := List.prefix_append _ _
        exact Or.inl (( List.prefix_of_prefix_length_le hp hxa hlen).isInfix)
      · push_neg at hlen
        have htake := List.prefix_iff_eq_take.mp hp
        rw [List.take_append_eq_append_take] at htake
        have hxa2 : (x :: a2).take p.length = x :: a2 :=
          List.take_of_length_le (by omega)
        rw [hxa2] at htake
        refine Or.inr (Or.inr ⟨x :: a2, b.take (p.length - (x :: a2).length), htake,
          by simp, ?_, List.suffix_refl _, List.take_prefix _ _⟩)
        intro hnil
        rw [hnil, List.append_nil] at htake
        have hpl : p.length = (x :: a2).length := by rw [htake]
        omega
    · rcases ih b ht with h1 | h1 | ⟨s1, t1, hcat, hs, htne, hsfx, hpfx⟩
      · exact Or.inl ( List.infix_cons h1)
      · exact Or.inr (Or.inl h1)
      · exact Or.inr (Or.inr ⟨s1, t1, hcat, hs, htne,
          hsfx.trans (List.suffix_cons x a2), hpfx⟩)

theorem split_eq_kjm (s1 t1 : List Char) (hcat : kjm = s1 ++ t1) (hs : s1 ≠ [])
    (ht : t1 ≠ []) : s1 = [kafC] ∨ s1 = [kafC, jeemC] := by
  cases s1 with
  | nil => cases hs rfl
  | cons a s2 =>
    rw [kjm_cons] at hcat
    rw [List.cons_append] at hcat
    have h1 : kafC = a := (List.cons.injEq _ _ _ _).mp hcat |>.1
    have h2 : [jeemC, meemC] = s2 ++ t1 := (List.cons.injEq _ _ _ _).mp hcat |>.2
    cases s2 with
    | nil =>
      left
      rw [← h1]
    | cons b s3 =>
      rw [List.cons_append] at h2
      have h3 : jeemC = b := (List.cons.injEq _ _ _ _).mp h2 |>.1
      have h4 : [meemC] = s3 ++ t1 := (List.cons.injEq _ _ _ _).mp h2 |>.2
      cases s3 with
      | nil =>
        right
        rw [← h1, ← h3]
      | cons d s4 =>
        rw [List.cons_append] at h4
        have h5 : ([] : List Char) = s4 ++ t1 := (List.cons.injEq _ _ _ _).mp h4 |>.2
        rcases List.append_eq_nil.mp h5.symm with ⟨-, ht1⟩
        exact absurd ht1 ht

theorem replaceTransfer (old new : List Char) (hold : old ≠ [])
    (hA : ¬ (kjm <:+: new))
    (hB1 : ¬ ([kafC] <:+ new)) (hB2 : ¬ ([kafC, jeemC] <:+ new))
    (hne : new ≠ [])
    (hHj : new.head? ≠ some jeemC) (hHm : new.head? ≠ some meemC) :
    ∀ n l, l.length ≤ n →
      ((kjm <:+: pyReplace l old new → kjm <:+: l) ∧
       ([jeemC, meemC] <+: pyReplace l old new → [jeemC, meemC] <+: l) ∧
       ([meemC] <+: pyReplace l old new → [meemC] <+: l)) := by
  intro n
  induction n with
  | zero =>
    intro l hl
    have hl0 : l = [] := by
      cases l with
      | nil => rfl
      | cons a t => simp at hl
    subst hl0
    rw [pyReplace_nil]
    refine ⟨?_, ?_, ?_⟩ <;> intro h
    · have hle := h.length_le
      simp [kjm] at hle
    · have hle := h.length_le
      simp at hle
    · have hle := h.length_le
      simp at hle
  | succ n ih =>
    intro l hl
    cases l with
    | nil =>
      rw [pyReplace_nil]
      refine ⟨?_, ?_, ?_⟩ <;> intro h
      · have hle := h.length_le
        simp [kjm] at hle
      · have hle := h.length_le
        simp at hle
      · have hle := h.length_le
        simp at hle
    | cons c rest =>
      have hrest : rest.length ≤ n := by
        simp only [List.length_cons] at hl
        omega
      by_cases hm : old.isPrefixOf (c :: rest) = true
      · rw [pyReplace_cons_match old new c rest ⟨hold, hm⟩]
        have hdl : (rest.drop (old.length - 1)).length ≤ n := by
          have hld := List.length_drop (old.length - 1) rest
          omega
        obtain ⟨ih1, ih2, ih3⟩ := ih _ hdl
        refine ⟨?_, ?_, ?_⟩
        · intro h
          rcases ifx_append_split kjm new _ h with h1 | h1 |
            ⟨s1, t1, hcat, hs, htne, hsfx, hpfx⟩
          · exact absurd h1 hA
          · have h2 := ih1 h1
            have h3 : kjm <:+: rest := h2.trans (List.drop_suffix _ _).isInfix
            exact List.infix_cons h3
          · rcases split_eq_kjm s1 t1 hcat hs htne with rfl | rfl
            · exact absurd hsfx hB1
            · exact absurd hsfx hB2
        · intro h
          cases hne2 : new with
          | nil => exact absurd hne2 hne
          | cons d t =>
            rw [hne2, List.cons_append] at h
            have hjd := ( List.cons_prefix_cons.mp h).1
            rw [hne2] at hHj
            simp only [List.head?_cons, ne_eq, Option.some.injEq] at hHj
            exact absurd hjd.symm hHj
        · intro h
          cases hne2 : new with
          | nil => exact absurd hne2 hne
          | cons d t =>
            rw [hne2, List.cons_append] at h
            have hmd := ( List.cons_prefix_cons.mp h).1
            rw [hne2] at hHm
            simp only [List.head?_cons, ne_eq, Option.some.injEq] at hHm
            exact absurd hmd.symm hHm
      · have hnm : ¬ (old ≠ [] ∧ old.isPrefixOf (c :: rest)) := by
          rintro ⟨-, hp⟩
          exact hm hp
        rw [pyReplace_cons_nomatch old new c rest hnm]
        obtain ⟨ih1, ih2, ih3⟩ := ih rest hrest
        refine ⟨?_, ?_, ?_⟩
        · intro h
          rcases List.infix_cons_iff.mp h with hp | ht
          · rw [kjm_cons] at hp
            have h1 := List.cons_prefix_cons.mp hp
            have h2 := ih2 h1.2
            have h3 : kjm <+: c :: rest := by
              rw [kjm_cons]
              exact List.cons_prefix_cons.mpr ⟨h1.1, h2⟩
            exact h3.isInfix
          · exact List.infix_cons (ih1 ht)
        · intro h
          have h1 := List.cons_prefix_cons.mp h
          exact List.cons_prefix_cons.mpr ⟨h1.1, ih3 h1.2⟩
        · intro h
          have h1 := List.cons_prefix_cons.mp h
          exact List.cons_prefix_cons.mpr ⟨h1.1, List.nil_prefix⟩

theorem replaceKjm :
    ∀ n l, l.length ≤ n →
      ((¬ (kjm <:+: pyReplace l kjm kiloGramVal)) ∧
       ([jeemC, meemC] <+: pyReplace l kjm kiloGramVal → [jeemC, meemC] <+: l) ∧
       ([meemC] <+: pyReplace l kjm kiloGramVal → [meemC] <+: l)) := by
  intro n
  induction n with
  | zero =>
    intro l hl
    have hl0 : l = [] := by
      cases l with
      | nil => rfl
      | cons a t => simp at hl
    subst hl0
    rw [pyReplace_nil]
    refine ⟨?_, ?_, ?_⟩ <;> intro h
    · have hle := h.length_le
      simp [kjm] at hle
    · have hle := h.length_le
      simp at hle
    · have hle := h.length_le
      simp at hle
  | succ n ih =>
    intro l hl
    cases l with
    | nil =>
      rw [pyReplace_nil]
      refine ⟨?_, ?_, ?_⟩ <;> intro h
      · have hle := h.length_le
        simp [kjm] at hle
      · have hle := h.length_le
        simp at hle
      · have hle := h.length_le
        simp at hle
    | cons c rest =>
      have hrest : rest.length ≤ n := by
        simp only [List.length_cons] at hl
        omega
      by_cases hm : List.isPrefixOf kjm (c :: rest) = true
      · rw [pyReplace_cons_match kjm kiloGramVal c rest ⟨by decide, hm⟩]
        have hdl : (rest.drop (kjm.length - 1)).length ≤ n := by
          have hld := List.length_drop (kjm.length - 1) rest
          omega
        obtain ⟨ih1, ih2, ih3⟩ := ih _ hdl
        refine ⟨?_, ?_, ?_⟩
        · intro h
          rcases ifx_append_split kjm kiloGramVal _ h with h1 | h1 |
            ⟨s1, t1, hcat, hs, htne, hsfx, hpfx⟩
          · exact absurd h1 (by decide)
          · exact absurd h1 ih1
          · rcases split_eq_kjm s1 t1 hcat hs htne with rfl | rfl
            · exact absurd hsfx (by decide)
            · exact absurd hsfx (by decide)
        · intro h
          rw [show kiloGramVal ++ pyReplace (rest.drop (kjm.length - 1)) kjm kiloGramVal
              = Char.ofNat 0x643 :: ([Char.ofNat 0x64A, Char.ofNat 0x644,
                Char.ofNat 0x648, Char.ofNat 0x63A, Char.ofNat 0x631,
                Char.ofNat 0x627, Char.ofNat 0x645] ++
                pyReplace (rest.drop (kjm.length - 1)) kjm kiloGramVal) from rfl] at h
          have h1 := ( List.cons_prefix_cons.mp h).1
          exact absurd h1 (by decide)
        · intro h
          rw [show kiloGramVal ++ pyReplace (rest.drop (kjm.length - 1)) kjm kiloGramVal
              = Char.ofNat 0x643 :: ([Char.ofNat 0x64A, Char.ofNat 0x644,
                Char.ofNat 0x648, Char.ofNat 0x63A, Char.ofNat 0x631,
                Char.ofNat 0x627, Char.ofNat 0x645] ++
                pyReplace (rest.drop (kjm.length - 1)) kjm kiloGramVal) from rfl] at h
          have h1 := ( List.cons_prefix_cons.mp h).1
          exact absurd h1 (by decide)
      · have hnm : ¬ (kjm ≠ [] ∧ List.isPrefixOf kjm (c :: rest)) := by
          rintro ⟨-, hp⟩
          exact hm hp
        rw [pyReplace_cons_nomatch kjm kiloGramVal c rest hnm]
        obtain ⟨ih1, ih2, ih3⟩ := ih rest hrest
        refine ⟨?_, ?_, ?_⟩
        · intro h
          rcases List.infix_cons_iff.mp h with hp | ht
          · rw [kjm_cons] at hp
            have h1 := List.cons_prefix_cons.mp hp
            have h2 := ih2 h1.2
            have h3 : kjm <+: c :: rest := by
              rw [kjm_cons]
              exact List.cons_prefix_cons.mpr ⟨h1.1, h2⟩
            exact hm ( List.isPrefixOf_iff_prefix.mpr h3)
          · exact ih1 ht
        · intro h
          have h1 := List.cons_prefix_cons.mp h
          exact List.cons_prefix_cons.mpr ⟨h1.1, ih3 h1.2⟩
        · intro h
          have h1 := List.cons_prefix_cons.mp h
          exact List.cons_prefix_cons.mpr ⟨h1.1, List.nil_prefix⟩

theorem collapseTransfer (l : List Char) :
    (∀ b, kjm <:+: collapseGo b l → kjm <:+: l) ∧
    ([jeemC, meemC] <+: collapseGo false l → [jeemC, meemC] <+: l) ∧
    ([meemC] <+: collapseGo false l → [meemC] <+: l) := by
  induction l with
  | nil =>
    refine ⟨?_, ?_, ?_⟩
    · intro b h
      cases b <;>
        · simp only [collapseGo] at h
          have hle := h.length_le
          simp [kjm] at hle
    · intro h
      simp only [collapseGo] at h
      have hle := h.length_le
      simp at hle
    · intro h
      simp only [collapseGo] at h
      have hle := h.length_le
      simp at hle
  | cons c rest ih =>
    obtain ⟨ihA, ihB, ihC⟩ := ih
    by_cases hs : isPySpace c = true
    · have e1 : collapseGo true (c :: rest) = collapseGo true rest := by
        simp [collapseGo, hs]
      have e0 : collapseGo false (c :: rest) = ' ' :: collapseGo true rest := by
        simp [collapseGo, hs]
      refine ⟨?_, ?_, ?_⟩
      · intro b h
        cases b
        · rw [e0] at h
          rcases List.infix_cons_iff.mp h with hp | ht
          · rw [kjm_cons] at hp
            have h1 := ( List.cons_prefix_cons.mp hp).1
            exact absurd h1 (by decide)
          · exact List.infix_cons (ihA true ht)
        · rw [e1] at h
          exact List.infix_cons (ihA true h)
      · intro h
        rw [e0] at h
        have h1 := ( List.cons_prefix_cons.mp h).1
        exact absurd h1 (by decide)
      · intro h
        rw [e0] at h
        have h1 := ( List.cons_prefix_cons.mp h).1
        exact absurd h1 (by decide)
    · have hs2 : isPySpace c = false := by simpa using hs
      have e : ∀ b, collapseGo b (c :: rest) = c :: collapseGo false rest := by
        intro b
        cases b <;> simp [collapseGo, hs2]
      refine ⟨?_, ?_, ?_⟩
      · intro b h
        rw [e b] at h
        rcases List.infix_cons_iff.mp h with hp | ht
        · rw [kjm_cons] at hp
          have h1 := List.cons_prefix_cons.mp hp
          have h2 := ihB h1.2
          have h3 : kjm <+: c :: rest := by
            rw [kjm_cons]
            exact List.cons_prefix_cons.mpr ⟨h1.1, h2⟩
          exact h3.isInfix
        · exact List.infix_cons (ihA false ht)
      · intro h
        rw [e false] at h
        have h1 := List.cons_prefix_cons.mp h
        exact List.cons_prefix_cons.mpr ⟨h1.1, ihC h1.2⟩
      · intro h
        rw [e false] at h
        have h1 := List.cons_prefix_cons.mp h
        exact List.cons_prefix_cons.mpr ⟨h1.1, List.nil_prefix⟩

theorem arabic_values_no_quote :
    ∀ p ∈ ARABIC_ABBREVIATIONS, ∀ c ∈ p.2, c ≠ '\x22' := by
  decide

theorem arabicExpand_no_kjm (t : List Char) :
    ¬ (kjm <:+: arabicExpandAbbreviations t) := by
  intro h
  simp only [arabicExpandAbbreviations, ARABIC_ABBREVIATIONS, List.foldl_cons,
    List.foldl_nil] at h
  have h6 := (replaceTransfer _ _ (by decide) (by decide) (by decide) (by decide)
    (by decide) (by decide) (by decide) _ _ le_rfl).1 h
  have h5 := (replaceTransfer _ _ (by decide) (by decide) (by decide) (by decide)
    (by decide) (by decide) (by decide) _ _ le_rfl).1 h6
  exact (replaceKjm _ _ le_rfl).1 h5

/-- C3 counterexample: the input "kjm, space, kaf, jeem, double quote, meem"
contains the literal substring kjm after NFKC normalization and diacritic
removal (real NFKC is the identity on these canonical Arabic letters,
matching nfkc_canonical), yet the output of normalize_arabic_text still
contains an occurrence of kjm that was not replaced: quote removal runs after
abbreviation expansion and joins kaf-jeem and meem across the deleted quote,
re-creating the substring in the output. -/
theorem C3_counterexample :
    kjm <:+: remove_diacritics (nfkc_canonical
      (kjm ++ [' ', kafC, jeemC, '\x22', meemC])) ∧
    kjm <:+: normalize_arabic_text nfkc_canonical
      (kjm ++ [' ', kafC, jeemC, '\x22', meemC]) := by
  decide

/-- C3 (amended): the Arabic abbreviation expansion uses raw substring
matching, and for every input whose NFKC-normalized, diacritic-stripped form
contains no double-quote character the output of normalize_arabic_text
contains no occurrence of the substring kjm: every occurrence, standalone or
embedded mid-token, is replaced.  (With a double quote between kaf-jeem and
meem in the input, the later quote-removal step can re-create the substring.)
The two equations exhibit the standalone case (the input kjm becomes exactly
the kilogram expansion) and the embedded mid-token case (seen kaf jeem meem
seen becomes seen ++ kilogram ++ seen). -/
theorem C3_amended_no_kjm_left (nfkc : List Char → List Char) (s : List Char)
    (hq : '\x22' ∉ remove_diacritics (nfkc s)) :
    ¬ (kjm <:+: normalize_arabic_text nfkc s) ∧
    normalize_arabic_text nfkc_canonical kjm = kiloGramVal ∧
    normalize_arabic_text nfkc_canonical
        [Char.ofNat 0x633, kafC, jeemC, meemC, Char.ofNat 0x633] =
      [Char.ofNat 0x633] ++ kiloGramVal ++ [Char.ofNat 0x633] := by
  refine ⟨?_, by decide, by decide⟩
  intro h
  set t2 := remove_diacritics (nfkc s) with ht2
  set t3 := arabicExpandAbbreviations t2 with ht3
  set t4 := collapse_whitespace t3 with ht4
  have hq4 : ∀ c ∈ t4, c ≠ '\x22' := by
    intro c hc
    rw [ht4] at hc
    rcases mem_collapseGo c t3 false hc with rfl | hc3
    · decide
    · rw [ht3] at hc3
      rcases mem_foldReplace ARABIC_ABBREVIATIONS c t2 hc3 with h1 | h1
      · intro hceq
        rw [hceq] at h1
        exact hq h1
      · obtain ⟨p, hp, hcp⟩ := h1
        exact arabic_values_no_quote p hp c hcp
  have ht5 : pyReplace t4 ['\x22'] [] = t4 := by
    rw [quoteReplace_eq_filter, List.filter_eq_self]
    intro c hc
    simpa using hq4 c hc
  have hout0 : normalize_arabic_text nfkc s = pyStrip (pyReplace t4 ['\x22'] []) := rfl
  have hout : normalize_arabic_text nfkc s = pyStrip t4 := by
    rw [hout0, ht5]
  rw [hout] at h
  have h4 : kjm <:+: t4 := h.trans (pyStrip_ifx t4)
  have h3 : kjm <:+: t3 := (collapseTransfer t3).1 false h4
  exact arabicExpand_no_kjm t2 h3

/-- Witness for C3 (amended) at the standalone input kjm and the identity
NFKC model: the hypothesis holds (no double quote in the normalized input)
and the output contains no occurrence of kjm. -/
theorem C3_amended_witness :
    '\x22' ∉ remove_diacritics (nfkc_canonical kjm) ∧
    ¬ (kjm <:+: normalize_arabic_text nfkc_canonical kjm) :=
  ⟨by decide, (C3_amended_no_kjm_left nfkc_canonical kjm (by decide)).1⟩
